import Mathlib

/-!
Shallow embedding of the generic thread-synchronization primitives of
src/misc/threads.c (condition variables, reader-writer lock, counting
semaphore, debug lock-mark tracker), together with proofs settling the
frozen claims about that file.

Modelling conventions:
- C `unsigned int` is `Nat` with explicit comparison against `UINT_MAX`;
  C `long` is `Int` with the 64-bit limits `READER_MASK`/`WRITER_BIT`.
- Atomic read-modify-write sequences are modelled as pure state
  transformers; a CAS loop is modelled by its sequential effect, with the
  values successively observed by the loop made explicit where the claim
  needs them.
- Blocking (parking on a wait cell) is modelled as an explicit outcome or
  as a guard of a transition relation; a fatal `assert`/`abort` is
  modelled as `Option.none` or a distinguished result.
-/

namespace VlcThreads

/-! ### Counting semaphore (`vlc_sem_init` / `vlc_sem_post` / `vlc_sem_wait` /
`vlc_sem_timedwait`)

`sem->value` is an `atomic_uint`; `UINT_MAX` is the largest value it can
hold.  `vlc_sem_post` returns `EOVERFLOW` (a nonzero errno) at the cap,
otherwise increments by one and notifies one waiter. -/

def UINT_MAX : Nat := 2 ^ 32 - 1

def EOVERFLOW : Nat := 75

/-- Result of `vlc_sem_post`: the returned status, the new value of
`sem->value`, and whether `vlc_atomic_notify_one` was called. -/
structure PostResult where
  ret : Nat
  value : Nat
  notified : Bool
deriving DecidableEq, Repr

/-- `vlc_sem_post`: the CAS loop increments `sem->value` by one unless the
loaded value is `UINT_MAX`, in which case it returns `EOVERFLOW` without
writing or notifying; on success it notifies one waiter and returns 0. -/
def vlc_sem_post (v : Nat) : PostResult :=
  if v = UINT_MAX then ⟨EOVERFLOW, v, false⟩
  else ⟨0, v + 1, true⟩

/-- One operation of a semaphore history: a `post` call or a `wait`
completion. -/
inductive SemOp where
  | post : SemOp
  | wait : SemOp
deriving DecidableEq, Repr

/-- Effect of one successfully completed operation on `sem->value`.
A `wait` can only complete by a CAS that decrements an observed nonzero
value (`vlc_sem_wait` parks while the value is 0), so at value 0 there is
no completing transition (`none`).  A `post` completes only when it does
not report `EOVERFLOW`. -/
def semStep (v : Nat) : SemOp → Option Nat
  | SemOp.post => if (vlc_sem_post v).ret = 0 then some (vlc_sem_post v).value else none
  | SemOp.wait => if v = 0 then none else some (v - 1)

/-- Run a sequence of successfully completed semaphore operations from
initial value `v` (`vlc_sem_init`); `none` when some operation cannot
complete successfully. -/
def semRun (v : Nat) : List SemOp → Option Nat
  | [] => some v
  | op :: ops =>
    match semStep v op with
    | none => none
    | some v2 => semRun v2 ops

/-- Number of `post` operations in a history. -/
def countPost : List SemOp → Nat
  | [] => 0
  | SemOp.post :: ops => countPost ops + 1
  | SemOp.wait :: ops => countPost ops

/-- Number of `wait` completions in a history. -/
def countWait : List SemOp → Nat
  | [] => 0
  | SemOp.post :: ops => countWait ops
  | SemOp.wait :: ops => countWait ops + 1

/-- Result of `vlc_sem_timedwait`: success carries the value written by
the decrementing CAS; `timedout` is the nonzero status returned when the
deadline elapses inside `vlc_atomic_timedwait`. -/
inductive SemWaitResult where
  | ok : Nat → SemWaitResult
  | timedout : SemWaitResult
deriving DecidableEq, Repr

/-- `vlc_sem_timedwait`: `obs` is the sequence of values of `sem->value`
observed by the retry loop (the initial load, then one fresh read after
each wake-up from the park).  A nonzero observation is decremented by the
CAS and the call returns success; a zero observation parks with the
deadline.  The list ending at a zero observation models the park elapsing
the deadline, upon which the call returns the timeout status immediately.
The second component counts the decrements the call performed. -/
def vlc_sem_timedwait : List Nat → SemWaitResult × Nat
  | [] => (SemWaitResult.timedout, 0)
  | v :: obs => if v = 0 then vlc_sem_timedwait obs else (SemWaitResult.ok (v - 1), 1)

/-! ### Reader-writer lock (`vlc_rwlock_*`)

`lock->state` is a signed `long`: sign bit set while write-held, positive
values count readers.  `READER_MASK = LONG_MAX`, `WRITER_BIT = LONG_MIN`
for 64-bit `long`. -/

def READER_MASK : Int := 9223372036854775807

def WRITER_BIT : Int := -9223372036854775808

/-- Outcome of one pass through `vlc_rwlock_rdlock` under the internal
mutex: `blocks` when the `while (lock->state < 0)` loop parks on the
condvar, `aborts` for the `state >= READER_MASK` overflow abort,
`acquired s` when the lock is taken leaving `lock->state = s`. -/
inductive RdlockResult where
  | blocks : RdlockResult
  | aborts : RdlockResult
  | acquired : Int → RdlockResult
deriving DecidableEq, Repr

/-- `vlc_rwlock_rdlock` body: wait while a writer holds the lock
(`state < 0`), abort on reader-count overflow, otherwise increment. -/
def vlc_rwlock_rdlock (state : Int) : RdlockResult :=
  if state < 0 then RdlockResult.blocks
  else if READER_MASK ≤ state then RdlockResult.aborts
  else RdlockResult.acquired (state + 1)

/-- Which condvar wake-up `vlc_rwlock_unlock` issues. -/
inductive WakeAction where
  | wBroadcast : WakeAction
  | wSignal : WakeAction
  | wNone : WakeAction
deriving DecidableEq, Repr

/-- `vlc_rwlock_unlock`: write-held (`state < 0`, asserted to be exactly
`WRITER_BIT`) resets the state to 0 and broadcasts; read-held decrements
and signals one waiter exactly when the count reaches zero.  Unlocking an
unheld lock fails the `assert (lock->state > 0)` (`none`). -/
def vlc_rwlock_unlock (state : Int) : Option (Int × WakeAction) :=
  if state < 0 then
    if state = WRITER_BIT then some (0, WakeAction.wBroadcast) else none
  else if state = 0 then none
  else if state - 1 = 0 then some (state - 1, WakeAction.wSignal)
  else some (state - 1, WakeAction.wNone)

/-- An rwlock state together with ghost counts of the threads currently
holding it for reading and for writing. -/
structure RW where
  state : Int
  readers : Nat
  writers : Nat
deriving DecidableEq, Repr

/-- Reachable rwlock states: `vlc_rwlock_init` starts at 0 with no
holders; each constructor is one completed operation of threads.c
(`rdlock` completes only when no writer holds the lock and no overflow
abort fires; `wrlock` completes only from the unheld state; `unlock`
branches on the sign of the state exactly as `vlc_rwlock_unlock` does). -/
inductive RWReach : RW → Prop
  | init : RWReach ⟨0, 0, 0⟩
  | rdlock {s : RW} : RWReach s → 0 ≤ s.state → s.state < READER_MASK →
      RWReach ⟨s.state + 1, s.readers + 1, s.writers⟩
  | wrlock {s : RW} : RWReach s → s.state = 0 →
      RWReach ⟨WRITER_BIT, s.readers, s.writers + 1⟩
  | unlockW {s : RW} : RWReach s → s.state < 0 →
      RWReach ⟨0, s.readers, s.writers - 1⟩
  | unlockR {s : RW} : RWReach s → 0 < s.state →
      RWReach ⟨s.state - 1, s.readers - 1, s.writers⟩

/-- The encoding documented in the NOTE above `vlc_rwlock_init`:
negative ⇔ one writer (and then the single sentinel `WRITER_BIT`),
positive ⇔ that many readers, zero ⇔ unheld. -/
def RWInv (s : RW) : Prop :=
  (s.state < 0 ↔ (s.writers = 1 ∧ s.state = WRITER_BIT ∧ s.readers = 0)) ∧
  (0 < s.state ↔ (s.writers = 0 ∧ 0 < s.readers ∧ s.state = (s.readers : Int))) ∧
  (s.state = 0 ↔ (s.writers = 0 ∧ s.readers = 0))

/-! ### Debug lock-mark tracker (`vlc_lock_mark` / `vlc_lock_unmark` /
`vlc_lock_marked`)

The per-thread `tsearch` tree keyed by lock address is modelled as an
association list of (object address, refcount) pairs; order within the
set is irrelevant to `tfind`/`tsearch`/`tdelete` semantics. -/

/-- One `struct vlc_lock_mark` entry: object identity and refcount. -/
abbrev LockMark := Nat × Nat

/-- `vlc_lock_mark`: `tsearch` find-or-insert for `lock` (fresh entries
start at 0 refs) followed by `mark->refs++`; an already-present entry is
reused and its refcount incremented. -/
def vlc_lock_mark (lock : Nat) (root : List LockMark) : List LockMark :=
  if root.any fun e => e.1 = lock then
    root.map fun e => if e.1 = lock then (e.1, e.2 + 1) else e
  else
    (lock, 1) :: root

/-- `vlc_lock_unmark`: `tfind` must succeed (`assert(entry != NULL)`) and
the refcount must be positive (`assert(mark->refs > 0)`) — `none` models
either assertion firing.  The refcount is decremented; at zero the entry
is `tdelete`d and freed. -/
def vlc_lock_unmark (lock : Nat) (root : List LockMark) : Option (List LockMark) :=
  match root.find? fun e => e.1 = lock with
  | none => none
  | some e =>
    if e.2 = 0 then none
    else if e.2 - 1 = 0 then some (root.filter fun x => ¬x.1 = lock)
    else some (root.map fun x => if x.1 = lock then (x.1, x.2 - 1) else x)

/-- `vlc_lock_marked`: `tfind` lookup. -/
def vlc_lock_marked (lock : Nat) (root : List LockMark) : Bool :=
  root.any fun e => e.1 = lock

/-- Refcount recorded for `lock`, when an entry exists. -/
def refsOf (lock : Nat) (root : List LockMark) : Option Nat :=
  (root.find? fun e => e.1 = lock).map fun e => e.2

/-! ### Condition variable (`vlc_cond_*`)

`struct vlc_cond_waiter` records are kept in an intrusive doubly-linked
list: `cond->head` points at the most recently spliced waiter, each
waiter's `pprev` points at the location holding the pointer to it (either
`&cond->head` or some waiter's `&next` field, possibly its own after a
detach).  Waiters are identified by `Nat` ids; the heap of waiter records
is a total function from ids. -/

/-- A `struct vlc_cond_waiter **` location: `&cond->head` or a waiter's
`&next` field. -/
inductive Slot where
  | headSlot : Slot
  | nextOf : Nat → Slot
deriving DecidableEq, Repr

/-- One `struct vlc_cond_waiter`: its linkage and its private wake
counter `value` (the `cond`/`mutex` back-pointers carry no state the
claims need). -/
structure Waiter where
  pprev : Slot
  next : Option Nat
  value : Nat
deriving DecidableEq, Repr

/-- A condition variable's queue state plus the heap of waiter records. -/
structure CV where
  head : Option Nat
  w : Nat → Waiter

/-- Dereference a `struct vlc_cond_waiter **`. -/
def CV.readSlot (cv : CV) : Slot → Option Nat
  | Slot.headSlot => cv.head
  | Slot.nextOf i => (cv.w i).next

/-- Assign through a `struct vlc_cond_waiter **`. -/
def CV.writeSlot (cv : CV) : Slot → Option Nat → CV
  | Slot.headSlot, v => { cv with head := v }
  | Slot.nextOf i, v =>
    { cv with w := fun j => if j = i then { cv.w i with next := v } else cv.w j }

/-- Assign `waiter->pprev`. -/
def CV.setPprev (cv : CV) (i : Nat) (p : Slot) : CV :=
  { cv with w := fun j => if j = i then { cv.w i with pprev := p } else cv.w j }

/-- Assign `waiter->next`. -/
def CV.setNext (cv : CV) (i : Nat) (n : Option Nat) : CV :=
  { cv with w := fun j => if j = i then { cv.w i with next := n } else cv.w j }

/-- Assign `waiter->value`. -/
def CV.setValue (cv : CV) (i : Nat) (v : Nat) : CV :=
  { cv with w := fun j => if j = i then { cv.w i with value := v } else cv.w j }

/-- `vlc_cond_signal_waiter`: point the detached waiter's linkage at
itself (`pprev = &waiter->next`, `next = NULL`), bump its private wake
counter, notify it. -/
def vlc_cond_signal_waiter (cv : CV) (i : Nat) : CV :=
  let cv1 := cv.setPprev i (Slot.nextOf i)
  let cv2 := cv1.setNext i none
  cv2.setValue i ((cv2.w i).value + 1)

/-- `vlc_cond_signal`: under `cond->lock`, unlink the queue head (if any)
from the list and wake it. -/
def vlc_cond_signal (cv : CV) : CV :=
  match cv.head with
  | none => cv
  | some i =>
    let next := (cv.w i).next
    let pprev := (cv.w i).pprev
    let cv1 := cv.writeSlot pprev next
    let cv2 :=
      match next with
      | none => cv1
      | some n => cv1.setPprev n pprev
    vlc_cond_signal_waiter cv2 i

/-- The walk of `vlc_cond_broadcast` over the detached list: capture
`waiter->next`, wake the waiter, continue.  `fuel` bounds the unbounded C
loop; any fuel at least the queue length is enough. -/
def broadcastWalk : Nat → CV → Option Nat → CV
  | _, cv, none => cv
  | 0, cv, some _ => cv
  | Nat.succ fuel, cv, some i =>
    let next := (cv.w i).next
    broadcastWalk fuel (vlc_cond_signal_waiter cv i) next

/-- `vlc_cond_broadcast`: under `cond->lock`, detach the whole queue by
resetting `cond->head` to `NULL`, then wake every entry of the detached
list. -/
def vlc_cond_broadcast (fuel : Nat) (cv : CV) : CV :=
  let waiter := cv.head
  let cv1 := { cv with head := none }
  broadcastWalk fuel cv1 waiter

/-- `vlc_cond_wait_prepare`: initialise the waiter (`pprev = &cond->head`,
`value = 0`) and splice it at the queue head under `cond->lock`. -/
def vlc_cond_wait_prepare (cv : CV) (i : Nat) : CV :=
  let cv1 := (cv.setPprev i Slot.headSlot).setValue i 0
  let next := cv1.head
  let cv2 := { cv1 with head := some i }
  let cv3 := cv2.setNext i next
  match next with
  | none => cv3
  | some n => cv3.setPprev n (Slot.nextOf i)

/-- The queue mutation of `vlc_cond_wait_finish`: unlink the waiter from
the list it may or may not still be on (`*(waiter->pprev) = next` and the
back-pointer fix-up), under `cond->lock`.  Re-acquiring the caller's
mutex and the cancellation bookkeeping mutate no condvar state. -/
def vlc_cond_wait_finish (cv : CV) (i : Nat) : CV :=
  let next := (cv.w i).next
  let pprev := (cv.w i).pprev
  let cv1 := cv.writeSlot pprev next
  match next with
  | none => cv1
  | some n => cv1.setPprev n pprev

/-- `chain cv s l`: starting from location `s`, the linked list spells
out exactly the waiter ids `l`, with every `pprev` back-pointer
consistent. -/
def chain (cv : CV) : Slot → List Nat → Prop
  | s, [] => cv.readSlot s = none
  | s, i :: l => cv.readSlot s = some i ∧ (cv.w i).pprev = s ∧ chain cv (Slot.nextOf i) l

/-- The condvar's queue is exactly the (duplicate-free) id list `l`,
head first — i.e. most recently spliced waiter first. -/
def isQueue (cv : CV) (l : List Nat) : Prop :=
  chain cv Slot.headSlot l ∧ l.Nodup

/-- The `next`-field chain alone (what the broadcast walk follows after
the queue is detached). -/
def nextChain (cv : CV) : Option Nat → List Nat → Prop
  | o, [] => o = none
  | o, i :: l => o = some i ∧ nextChain cv ((cv.w i).next) l

/-- `k` successive `vlc_cond_signal` calls. -/
def signalN : Nat → CV → CV
  | 0, cv => cv
  | Nat.succ k, cv => signalN k (vlc_cond_signal cv)

/-- `vlc_cond_wait` calls `vlc_cond_wait_prepare` for each waiter in call
order. -/
def prepares (cv : CV) (ts : List Nat) : CV :=
  ts.foldl vlc_cond_wait_prepare cv

/-- The empty condvar (`vlc_cond_init`) together with an all-zero heap of
waiter records. -/
def cvInit : CV :=
  { head := none, w := fun _ => { pprev := Slot.headSlot, next := none, value := 0 } }

/-! ### Basic lemmas about the condvar state operations -/

@[simp]
theorem setPprev_head (cv : CV) (i : Nat) (p : Slot) : (cv.setPprev i p).head = cv.head := rfl

@[simp]
theorem setNext_head (cv : CV) (i : Nat) (n : Option Nat) : (cv.setNext i n).head = cv.head := rfl

@[simp]
theorem setValue_head (cv : CV) (i : Nat) (v : Nat) : (cv.setValue i v).head = cv.head := rfl

@[simp]
theorem setPprev_w_self (cv : CV) (i : Nat) (p : Slot) :
    (cv.setPprev i p).w i = { cv.w i with pprev := p } := by
  simp [CV.setPprev]

@[simp]
theorem setPprev_w_other (cv : CV) {i j : Nat} (p : Slot) (h : j ≠ i) :
    (cv.setPprev i p).w j = cv.w j := by
  simp [CV.setPprev, h]

@[simp]
theorem setNext_w_self (cv : CV) (i : Nat) (n : Option Nat) :
    (cv.setNext i n).w i = { cv.w i with next := n } := by
  simp [CV.setNext]

@[simp]
theorem setNext_w_other (cv : CV) {i j : Nat} (n : Option Nat) (h : j ≠ i) :
    (cv.setNext i n).w j = cv.w j := by
  simp [CV.setNext, h]

@[simp]
theorem setValue_w_self (cv : CV) (i : Nat) (v : Nat) :
    (cv.setValue i v).w i = { cv.w i with value := v } := by
  simp [CV.setValue]

@[simp]
theorem setValue_w_other (cv : CV) {i j : Nat} (v : Nat) (h : j ≠ i) :
    (cv.setValue i v).w j = cv.w j := by
  simp [CV.setValue, h]

@[simp]
theorem writeSlot_headSlot (cv : CV) (v : Option Nat) :
    cv.writeSlot Slot.headSlot v = { cv with head := v } := rfl

@[simp]
theorem writeSlot_nextOf_head (cv : CV) (i : Nat) (v : Option Nat) :
    (cv.writeSlot (Slot.nextOf i) v).head = cv.head := rfl

@[simp]
theorem writeSlot_nextOf_w_self (cv : CV) (i : Nat) (v : Option Nat) :
    (cv.writeSlot (Slot.nextOf i) v).w i = { cv.w i with next := v } := by
  simp [CV.writeSlot]

@[simp]
theorem writeSlot_nextOf_w_other (cv : CV) {i j : Nat} (v : Option Nat) (h : j ≠ i) :
    (cv.writeSlot (Slot.nextOf i) v).w j = cv.w j := by
  simp [CV.writeSlot, h]

@[simp]
theorem readSlot_headSlot (cv : CV) : cv.readSlot Slot.headSlot = cv.head := rfl

@[simp]
theorem readSlot_nextOf (cv : CV) (i : Nat) : cv.readSlot (Slot.nextOf i) = (cv.w i).next := rfl

@[simp]
theorem signal_waiter_head (cv : CV) (i : Nat) :
    (vlc_cond_signal_waiter cv i).head = cv.head := by
  simp [vlc_cond_signal_waiter]

@[simp]
theorem signal_waiter_w_self (cv : CV) (i : Nat) :
    (vlc_cond_signal_waiter cv i).w i =
      { pprev := Slot.nextOf i, next := none, value := (cv.w i).value + 1 } := by
  simp [vlc_cond_signal_waiter]

@[simp]
theorem signal_waiter_w_other (cv : CV) {i j : Nat} (h : j ≠ i) :
    (vlc_cond_signal_waiter cv i).w j = cv.w j := by
  simp [vlc_cond_signal_waiter, h]

/-- `chain` only reads the start location and the records of the listed
waiters, so it survives writes elsewhere. -/
theorem chain_congr {cv cv2 : CV} {s : Slot} {l : List Nat}
    (hs : cv2.readSlot s = cv.readSlot s) (hw : ∀ k ∈ l, cv2.w k = cv.w k)
    (h : chain cv s l) : chain cv2 s l := by
  induction l generalizing s with
  | nil => simpa [chain, hs] using h
  | cons i l ih =>
    obtain ⟨h1, h2, h3⟩ := h
    have hwi : cv2.w i = cv.w i := hw i (by simp)
    exact ⟨hs.trans h1, by rw [hwi]; exact h2,
      ih (by simp [hwi]) (fun k hk => hw k (by simp [hk])) h3⟩

/-- `nextChain` only reads the records of the listed waiters. -/
theorem nextChain_congr {cv cv2 : CV} {o : Option Nat} {l : List Nat}
    (hw : ∀ k ∈ l, cv2.w k = cv.w k) (h : nextChain cv o l) : nextChain cv2 o l := by
  induction l generalizing o with
  | nil => simpa [nextChain] using h
  | cons i l ih =>
    obtain ⟨h1, h2⟩ := h
    have hwi : cv2.w i = cv.w i := hw i (by simp)
    exact ⟨h1, by rw [hwi]; exact ih (fun k hk => hw k (by simp [hk])) h2⟩

/-- A well-formed chain yields the plain `next`-field chain. -/
theorem chain_nextChain {cv : CV} {s : Slot} {l : List Nat} (h : chain cv s l) :
    nextChain cv (cv.readSlot s) l := by
  induction l generalizing s with
  | nil => simpa [chain, nextChain] using h
  | cons i l ih =>
    obtain ⟨h1, _, h3⟩ := h
    exact ⟨h1, ih h3⟩

/-- `vlc_cond_signal` on an empty queue does nothing. -/
theorem signal_nil {cv : CV} (h : isQueue cv []) : vlc_cond_signal cv = cv := by
  have hh : cv.head = none := h.1
  simp [vlc_cond_signal, hh]

@[simp]
theorem broadcastWalk_none (fuel : Nat) (cv : CV) : broadcastWalk fuel cv none = cv := by
  cases fuel <;> rfl

@[simp]
theorem broadcastWalk_succ (fuel : Nat) (cv : CV) (i : Nat) :
    broadcastWalk (fuel + 1) cv (some i) =
      broadcastWalk fuel (vlc_cond_signal_waiter cv i) ((cv.w i).next) := rfl

/-- `vlc_cond_wait_prepare` splices the new waiter at the queue head,
initialises its wake counter to 0, and touches no other waiter's
counter. -/
theorem prepare_spec {cv : CV} {l : List Nat} {i : Nat}
    (h : isQueue cv l) (hi : i ∉ l) :
    isQueue (vlc_cond_wait_prepare cv i) (i :: l) ∧
    ((vlc_cond_wait_prepare cv i).w i).value = 0 ∧
    ∀ j, j ≠ i → ((vlc_cond_wait_prepare cv i).w j).value = (cv.w j).value := by
  obtain ⟨hc, hnd⟩ := h
  cases l with
  | nil =>
    have hh : cv.head = none := hc
    refine ⟨⟨?_, by simp⟩, ?_, ?_⟩
    · show chain _ Slot.headSlot [i]
      simp only [chain]
      refine ⟨?_, ?_, ?_⟩ <;> simp [vlc_cond_wait_prepare, hh]
    · simp [vlc_cond_wait_prepare, hh]
    · intro j hj
      simp [vlc_cond_wait_prepare, hh, hj]
  | cons n l2 =>
    obtain ⟨h1, h2, h3⟩ := hc
    have h1h : cv.head = some n := h1
    have hin : i ≠ n := fun e => hi (e ▸ List.mem_cons_self n l2)
    have hni : n ≠ i := fun e => hin e.symm
    have hil : i ∉ l2 := fun m => hi (List.mem_cons_of_mem n m)
    have hnl : n ∉ l2 := (List.nodup_cons.mp hnd).1
    refine ⟨⟨?_, List.nodup_cons.mpr ⟨hi, hnd⟩⟩, ?_, ?_⟩
    · show chain _ Slot.headSlot (i :: n :: l2)
      simp only [chain]
      refine ⟨?_, ?_, ?_, ?_, ?_⟩
      · simp [vlc_cond_wait_prepare, h1h]
      · simp [vlc_cond_wait_prepare, h1h, hin, hni]
      · simp [vlc_cond_wait_prepare, h1h, hin, hni]
      · simp [vlc_cond_wait_prepare, h1h, hin, hni]
      · refine chain_congr ?_ ?_ h3
        · simp [vlc_cond_wait_prepare, h1h, hin, hni]
        · intro k hk
          have hki : k ≠ i := fun e => hil (e ▸ hk)
          have hkn : k ≠ n := fun e => hnl (e ▸ hk)
          simp [vlc_cond_wait_prepare, h1h, hki, hkn]
    · simp [vlc_cond_wait_prepare, h1h, hin, hni]
    · intro j hj
      by_cases hjn : j = n
      · subst hjn
        simp [vlc_cond_wait_prepare, h1h, hni]
      · simp [vlc_cond_wait_prepare, h1h, hj, hjn]

/-- `vlc_cond_signal` on a nonempty queue unlinks exactly the head
waiter, bumps its wake counter by one, and leaves every other waiter's
counter unchanged. -/
theorem signal_cons_spec {cv : CV} {i : Nat} {l : List Nat} (h : isQueue cv (i :: l)) :
    isQueue (vlc_cond_signal cv) l ∧
    ((vlc_cond_signal cv).w i).value = (cv.w i).value + 1 ∧
    ∀ j, j ≠ i → ((vlc_cond_signal cv).w j).value = (cv.w j).value := by
  obtain ⟨hc, hnd⟩ := h
  obtain ⟨h1, h2, h3⟩ := hc
  have h1h : cv.head = some i := h1
  have hil : i ∉ l := (List.nodup_cons.mp hnd).1
  have hndl : l.Nodup := (List.nodup_cons.mp hnd).2
  cases l with
  | nil =>
    have hn : (cv.w i).next = none := h3
    refine ⟨⟨?_, by simp⟩, ?_, ?_⟩
    · show chain _ Slot.headSlot []
      simp only [chain]
      simp [vlc_cond_signal, h1h, h2, hn]
    · simp [vlc_cond_signal, h1h, h2, hn]
    · intro j hj
      simp [vlc_cond_signal, h1h, h2, hn, hj]
  | cons n l2 =>
    obtain ⟨hn1, hn2, hn3⟩ := h3
    have hn1h : (cv.w i).next = some n := hn1
    have hni : n ≠ i := fun e => hil (e ▸ List.mem_cons_self n l2)
    have hin : i ≠ n := fun e => hni e.symm
    have hnl : n ∉ l2 := (List.nodup_cons.mp hndl).1
    refine ⟨⟨?_, hndl⟩, ?_, ?_⟩
    · show chain _ Slot.headSlot (n :: l2)
      simp only [chain]
      refine ⟨?_, ?_, ?_⟩
      · simp [vlc_cond_signal, h1h, h2, hn1h, hni]
      · simp [vlc_cond_signal, h1h, h2, hn1h, hni, hin]
      · refine chain_congr ?_ ?_ hn3
        · simp [vlc_cond_signal, h1h, h2, hn1h, hni, hin]
        · intro k hk
          have hki : k ≠ i := fun e => hil (e ▸ List.mem_cons_of_mem n hk)
          have hkn : k ≠ n := fun e => hnl (e ▸ hk)
          simp [vlc_cond_signal, h1h, h2, hn1h, hki, hkn]
    · simp [vlc_cond_signal, h1h, h2, hn1h, hin, hni]
    · intro j hj
      by_cases hjn : j = n
      · subst hjn
        simp [vlc_cond_signal, h1h, h2, hn1h, hni, hj]
      · simp [vlc_cond_signal, h1h, h2, hn1h, hj, hjn]

/-- The broadcast walk wakes every waiter on the detached `next`-chain
exactly once and touches nothing else. -/
theorem broadcastWalk_spec {l : List Nat} :
    ∀ {cv : CV} {o : Option Nat} {fuel : Nat},
      nextChain cv o l → l.Nodup → l.length ≤ fuel →
      (broadcastWalk fuel cv o).head = cv.head ∧
      (∀ i ∈ l, ((broadcastWalk fuel cv o).w i).value = (cv.w i).value + 1) ∧
      (∀ j, j ∉ l → (broadcastWalk fuel cv o).w j = cv.w j) := by
  induction l with
  | nil =>
    intro cv o fuel h _ _
    have ho : o = none := h
    subst ho
    simp
  | cons i l2 ih =>
    intro cv o fuel h hnd hf
    obtain ⟨ho, hch⟩ := h
    subst ho
    cases fuel with
    | zero => simp at hf
    | succ f =>
      have hil : i ∉ l2 := (List.nodup_cons.mp hnd).1
      have hch2 : nextChain (vlc_cond_signal_waiter cv i) ((cv.w i).next) l2 :=
        nextChain_congr (fun k hk => signal_waiter_w_other cv fun e => hil (e ▸ hk)) hch
      have hf2 : l2.length ≤ f := by
        simp only [List.length_cons] at hf
        omega
      obtain ⟨g1, g2, g3⟩ := ih hch2 (List.nodup_cons.mp hnd).2 hf2
      rw [broadcastWalk_succ]
      refine ⟨?_, ?_, ?_⟩
      · rw [g1]
        simp
      · intro k hk
        rcases List.mem_cons.mp hk with rfl | hk2
        · rw [g3 k hil]
          simp
        · have hki : k ≠ i := fun e => hil (e ▸ hk2)
          rw [g2 k hk2]
          simp [hki]
      · intro j hj
        have hji : j ≠ i := fun e => hj (e ▸ List.mem_cons_self i l2)
        have hjl : j ∉ l2 := fun m => hj (List.mem_cons_of_mem i m)
        rw [g3 j hjl]
        exact signal_waiter_w_other cv hji

/-- `vlc_cond_broadcast` with enough fuel: the queue ends empty and
every queued waiter's wake counter is bumped exactly once; no other
waiter record changes. -/
theorem broadcast_spec {cv : CV} {l : List Nat} {fuel : Nat}
    (h : isQueue cv l) (hf : l.length ≤ fuel) :
    (vlc_cond_broadcast fuel cv).head = none ∧
    isQueue (vlc_cond_broadcast fuel cv) [] ∧
    (∀ i ∈ l, ((vlc_cond_broadcast fuel cv).w i).value = (cv.w i).value + 1) ∧
    (∀ j, j ∉ l → (vlc_cond_broadcast fuel cv).w j = cv.w j) := by
  obtain ⟨hc, hnd⟩ := h
  have hnc : nextChain cv cv.head l := chain_nextChain hc
  have hnc1 : nextChain { cv with head := none } cv.head l :=
    @nextChain_congr cv { cv with head := none } cv.head l (fun k _ => rfl) hnc
  obtain ⟨g1, g2, g3⟩ := broadcastWalk_spec hnc1 hnd hf
  have hbe : vlc_cond_broadcast fuel cv = broadcastWalk fuel { cv with head := none } cv.head :=
    rfl
  refine ⟨?_, ⟨?_, by simp⟩, ?_, ?_⟩
  · rw [hbe, g1]
  · show chain _ Slot.headSlot []
    simp only [chain, CV.readSlot]
    rw [hbe, g1]
  · intro i hi
    rw [hbe, g2 i hi]
  · intro j hj
    rw [hbe, g3 j hj]

/-- `k` successive `vlc_cond_signal` calls wake exactly the first `k`
waiters of the queue list (most recently spliced first), once each,
leaving the rest queued with untouched counters. -/
theorem signalN_spec : ∀ (k : Nat) {cv : CV} {l : List Nat},
    isQueue cv l → k ≤ l.length →
    isQueue (signalN k cv) (l.drop k) ∧
    (∀ j ∈ l.take k, ((signalN k cv).w j).value = (cv.w j).value + 1) ∧
    (∀ j, j ∉ l.take k → ((signalN k cv).w j).value = (cv.w j).value) := by
  intro k
  induction k with
  | zero =>
    intro cv l h _
    refine ⟨by simpa [signalN] using h, by simp, by simp [signalN]⟩
  | succ k ih =>
    intro cv l h hk
    cases l with
    | nil => simp at hk
    | cons i l2 =>
      obtain ⟨s1, s2, s3⟩ := signal_cons_spec h
      have hil : i ∉ l2 := (List.nodup_cons.mp h.2).1
      have hk2 : k ≤ l2.length := by
        simp only [List.length_cons] at hk
        omega
      obtain ⟨g1, g2, g3⟩ := ih s1 hk2
      have he : signalN (k + 1) cv = signalN k (vlc_cond_signal cv) := rfl
      refine ⟨?_, ?_, ?_⟩
      · rw [List.drop_succ_cons, he]
        exact g1
      · intro j hj
        rw [List.take_succ_cons] at hj
        rcases List.mem_cons.mp hj with rfl | hj2
        · have hit : j ∉ l2.take k := fun m => hil (List.take_subset k l2 m)
          rw [he, g3 j hit, s2]
        · have hji : j ≠ i := fun e => hil (e ▸ List.take_subset k l2 hj2)
          rw [he, g2 j hj2, s3 j hji]
      · intro j hj
        rw [List.take_succ_cons] at hj
        have hji : j ≠ i := fun e => hj (e ▸ List.mem_cons_self i (l2.take k))
        have hjt : j ∉ l2.take k := fun m => hj (List.mem_cons_of_mem i m)
        rw [he, g3 j hjt, s3 j hji]

/-- Successive `vlc_cond_wait_prepare` calls build the queue list in
reverse call order (most recent call at the head), with every wake
counter still 0. -/
theorem prepares_spec : ∀ (ts : List Nat) {cv : CV} {l : List Nat},
    isQueue cv l → (ts.reverse ++ l).Nodup → (∀ j, (cv.w j).value = 0) →
    isQueue (prepares cv ts) (ts.reverse ++ l) ∧
    (∀ j, ((prepares cv ts).w j).value = 0) := by
  intro ts
  induction ts with
  | nil =>
    intro cv l h hnd hv
    exact ⟨by simpa using h, hv⟩
  | cons t ts ih =>
    intro cv l h hnd hv
    have hre : (t :: ts).reverse ++ l = ts.reverse ++ (t :: l) := by simp
    rw [hre] at hnd ⊢
    have htl : (t :: l).Nodup := List.Nodup.of_append_right hnd
    have hti : t ∉ l := (List.nodup_cons.mp htl).1
    obtain ⟨p1, p2, p3⟩ := prepare_spec h hti
    have hv1 : ∀ j, ((vlc_cond_wait_prepare cv t).w j).value = 0 := by
      intro j
      by_cases hj : j = t
      · subst hj
        exact p2
      · rw [p3 j hj]
        exact hv j
    have hpe : prepares cv (t :: ts) = prepares (vlc_cond_wait_prepare cv t) ts := rfl
    rw [hpe]
    exact ih p1 hnd hv1

/-- The queue of `cvInit` is empty. -/
theorem cvInit_isQueue : isQueue cvInit [] := by
  exact ⟨rfl, by simp⟩

/-- Every reachable rwlock state satisfies the documented sign
encoding. -/
theorem rwInv_of_reach {s : RW} (h : RWReach s) : RWInv s := by
  induction h with
  | init =>
    simp only [RWInv, WRITER_BIT, READER_MASK]
    decide
  | rdlock hre h0 hm ih =>
    simp only [RWInv, WRITER_BIT, READER_MASK] at ih hm ⊢
    omega
  | wrlock hre h0 ih =>
    simp only [RWInv, WRITER_BIT, READER_MASK, true_and, and_true, true_iff, iff_true] at ih ⊢
    omega
  | unlockW hre h0 ih =>
    simp only [RWInv, WRITER_BIT, READER_MASK, true_and, and_true, true_iff, iff_true] at ih ⊢
    omega
  | unlockR hre h0 ih =>
    simp only [RWInv, WRITER_BIT, READER_MASK, true_and, and_true, true_iff, iff_true] at ih ⊢
    omega

/-- Incrementing the refcount of a key absent from the set is the
identity on the set. -/
theorem map_inc_nolock {root : List LockMark} {lock : Nat}
    (h : ∀ e ∈ root, e.1 ≠ lock) :
    (root.map fun e => if e.1 = lock then (e.1, e.2 + 1) else e) = root := by
  induction root with
  | nil => rfl
  | cons a root ih =>
    have ha : a.1 ≠ lock := h a (by simp)
    simp [ha, ih fun e he => h e (by simp [he])]

/-- Decrementing the refcount of a key absent from the set is the
identity on the set. -/
theorem map_dec_nolock {root : List LockMark} {lock : Nat}
    (h : ∀ e ∈ root, e.1 ≠ lock) :
    (root.map fun x => if x.1 = lock then (x.1, x.2 - 1) else x) = root := by
  induction root with
  | nil => rfl
  | cons a root ih =>
    have ha : a.1 ≠ lock := h a (by simp)
    simp [ha, ih fun e he => h e (by simp [he])]

/-- Deleting a key absent from the set is the identity on the set. -/
theorem filter_nolock {root : List LockMark} {lock : Nat}
    (h : ∀ e ∈ root, e.1 ≠ lock) :
    (root.filter fun x => ¬x.1 = lock) = root := by
  induction root with
  | nil => rfl
  | cons a root ih =>
    have ha : a.1 ≠ lock := h a (by simp)
    have ih2 := ih fun e he => h e (by simp [he])
    have hpa : (decide ¬a.1 = lock) = true := by simpa using ha
    rw [List.filter_cons, if_pos hpa, ih2]

/-- A key absent from the set is not found by `tfind`. -/
theorem any_nolock {root : List LockMark} {lock : Nat}
    (h : ∀ e ∈ root, e.1 ≠ lock) :
    (root.any fun e => e.1 = lock) = false := by
  simp only [List.any_eq_false]
  intro x hx
  simpa using h x hx

/-! ### Claim theorems -/

/-- Claim C1, counterexample: waiters queue by `vlc_cond_wait_prepare` in
order t1 = 1 then t2 = 2; one `vlc_cond_signal` wakes waiter 2 — the most
recently queued — and leaves waiter 1 (the earliest-queued) unwoken, so
signal() is LIFO, not FIFO as claimed. -/
theorem vlc_cond_signal_not_fifo :
    ((vlc_cond_signal (vlc_cond_wait_prepare (vlc_cond_wait_prepare cvInit 1) 2)).w 1).value
      = 0 ∧
    ((vlc_cond_signal (vlc_cond_wait_prepare (vlc_cond_wait_prepare cvInit 1) 2)).w 2).value
      = 1 ∧
    ¬((vlc_cond_signal (vlc_cond_wait_prepare (vlc_cond_wait_prepare cvInit 1) 2)).w 1).value
      = 1 := by
  refine ⟨rfl, rfl, by decide⟩

/-- Claim C1 (amended): with waiters queued by `wait()` in order t1..tN
(none yet woken), each successive `signal()` wakes the latest-queued
remaining waiter, so `k` repeated single `signal()` calls wake exactly
tN..t(N-k+1), in that reverse order, leaving t1..t(N-k) still queued and
unwoken. -/
theorem vlc_cond_signal_lifo (ts : List Nat) (hnd : ts.Nodup) (k : Nat)
    (hk : k ≤ ts.length) :
    (∀ j ∈ ts.reverse.take k, ((signalN k (prepares cvInit ts)).w j).value = 1) ∧
    (∀ j ∈ ts.reverse.drop k, ((signalN k (prepares cvInit ts)).w j).value = 0) ∧
    isQueue (signalN k (prepares cvInit ts)) (ts.reverse.drop k) := by
  have hnd2 : (ts.reverse ++ ([] : List Nat)).Nodup := by simpa using hnd
  obtain ⟨hq, hv2⟩ :=
    prepares_spec ts cvInit_isQueue hnd2 fun j => rfl
  rw [List.append_nil] at hq
  have hlen : k ≤ ts.reverse.length := by simpa using hk
  obtain ⟨g1, g2, g3⟩ := signalN_spec k hq hlen
  refine ⟨?_, ?_, g1⟩
  · intro j hj
    rw [g2 j hj, hv2 j]
  · intro j hj
    have hrnd : ts.reverse.Nodup := by simpa using hnd
    have hdisj : List.Disjoint (ts.reverse.take k) (ts.reverse.drop k) :=
      List.disjoint_take_drop hrnd le_rfl
    have hnt : j ∉ ts.reverse.take k := fun m => hdisj m hj
    rw [g3 j hnt, hv2 j]

/-- Claim C1 witness: three concrete waiters 1, 2, 3; one signal wakes
waiter 3 only, and the queue keeps 2 then 1. -/
theorem vlc_cond_signal_lifo_witness :
    (∀ j ∈ ([1, 2, 3] : List Nat).reverse.take 1,
      ((signalN 1 (prepares cvInit [1, 2, 3])).w j).value = 1) ∧
    (∀ j ∈ ([1, 2, 3] : List Nat).reverse.drop 1,
      ((signalN 1 (prepares cvInit [1, 2, 3])).w j).value = 0) ∧
    isQueue (signalN 1 (prepares cvInit [1, 2, 3])) (([1, 2, 3] : List Nat).reverse.drop 1) :=
  vlc_cond_signal_lifo [1, 2, 3] (by decide) 1 (by decide)

/-- Claim C2: for initial value V, any history of successfully completed
posts and waits conserves the count — the final value plus the number of
completed waits equals V plus the number of completed posts (so the count
is exactly V + P − W) — and a wait can never complete while the count is
zero (no transition exists there without an intervening post). -/
theorem vlc_sem_conservation (v : Nat) (ops : List SemOp) (c : Nat)
    (h : semRun v ops = some c) :
    c + countWait ops = v + countPost ops ∧ semStep 0 SemOp.wait = none := by
  refine ⟨?_, rfl⟩
  induction ops generalizing v with
  | nil =>
    simp only [semRun, Option.some.injEq] at h
    simp [countPost, countWait, h]
  | cons op ops ih =>
    cases op with
    | post =>
      by_cases hv : v = UINT_MAX
      · exfalso
        simp [semRun, semStep, vlc_sem_post, hv, EOVERFLOW] at h
      · have hs : semStep v SemOp.post = some (v + 1) := by
          simp [semStep, vlc_sem_post, hv]
        simp only [semRun, hs] at h
        have := ih (v + 1) h
        simp only [countPost, countWait]
        omega
    | wait =>
      by_cases hv : v = 0
      · exfalso
        simp [semRun, semStep, hv] at h
      · have hs : semStep v SemOp.wait = some (v - 1) := by
          simp [semStep, hv]
        simp only [semRun, hs] at h
        have := ih (v - 1) h
        simp only [countPost, countWait]
        omega

/-- Claim C2 witness: V = 1, one post then two waits, final count 0. -/
theorem vlc_sem_conservation_witness :
    0 + countWait [SemOp.post, SemOp.wait, SemOp.wait] =
      1 + countPost [SemOp.post, SemOp.wait, SemOp.wait] ∧
    semStep 0 SemOp.wait = none :=
  vlc_sem_conservation 1 [SemOp.post, SemOp.wait, SemOp.wait] 0 (by decide)

/-- Claim C3: every rwlock state reachable by rdlock/wrlock/unlock
satisfies the sign encoding — negative iff exactly one writer holds it
(and then the single sentinel `WRITER_BIT`), positive iff that many
readers hold it, zero iff unheld. -/
theorem vlc_rwlock_state_encoding (s : RW) (h : RWReach s) : RWInv s :=
  rwInv_of_reach h

/-- Claim C3 witness: the initial state. -/
theorem vlc_rwlock_state_encoding_witness : RWInv ⟨0, 0, 0⟩ :=
  vlc_rwlock_state_encoding ⟨0, 0, 0⟩ RWReach.init

/-- Claim C4: `vlc_cond_broadcast` detaches the whole queue (head reset
to empty) and delivers exactly one wake to every waiter queued at the
moment of detachment; afterwards the queue is empty. -/
theorem vlc_cond_broadcast_completeness {cv : CV} {l : List Nat} {fuel : Nat}
    (h : isQueue cv l) (hf : l.length ≤ fuel) :
    (vlc_cond_broadcast fuel cv).head = none ∧
    isQueue (vlc_cond_broadcast fuel cv) [] ∧
    (∀ i ∈ l, ((vlc_cond_broadcast fuel cv).w i).value = (cv.w i).value + 1) := by
  obtain ⟨g1, g2, g3, _⟩ := broadcast_spec h hf
  exact ⟨g1, g2, g3⟩

/-- Queue of a single waiter spliced onto the empty condvar. -/
theorem prepare_cvInit_queue (i : Nat) : isQueue (vlc_cond_wait_prepare cvInit i) [i] :=
  (prepare_spec cvInit_isQueue (by simp)).1

/-- Claim C4 witness: one concrete queued waiter. -/
theorem vlc_cond_broadcast_completeness_witness :
    (vlc_cond_broadcast 1 (vlc_cond_wait_prepare cvInit 0)).head = none ∧
    isQueue (vlc_cond_broadcast 1 (vlc_cond_wait_prepare cvInit 0)) [] ∧
    (∀ i ∈ [0], ((vlc_cond_broadcast 1 (vlc_cond_wait_prepare cvInit 0)).w i).value =
      ((vlc_cond_wait_prepare cvInit 0).w i).value + 1) :=
  vlc_cond_broadcast_completeness (prepare_cvInit_queue 0) (by decide)

/-- Claim C5: `vlc_sem_post` at `UINT_MAX` returns the distinct nonzero
overflow status with the count unchanged and no notification; below
`UINT_MAX` it increments by exactly one, notifies one waiter, and
returns success. -/
theorem vlc_sem_post_overflow :
    vlc_sem_post UINT_MAX = ⟨EOVERFLOW, UINT_MAX, false⟩ ∧
    EOVERFLOW ≠ 0 ∧
    ∀ v : Nat, v < UINT_MAX → vlc_sem_post v = ⟨0, v + 1, true⟩ := by
  refine ⟨by simp [vlc_sem_post], by decide, ?_⟩
  intro v hv
  simp [vlc_sem_post, Nat.ne_of_lt hv]

/-- Claim C5 witness: posting at count 5. -/
theorem vlc_sem_post_overflow_witness : vlc_sem_post 5 = ⟨0, 6, true⟩ :=
  vlc_sem_post_overflow.2.2 5 (by decide)

/-- Claim C6: for every reachable rwlock state, unlock in the write-held
state (state negative) resets the state to 0 and broadcasts — and the
broadcast wakes every queued waiter — while unlock in the read-held state
decrements by one and signals one waiter exactly when the count reaches
zero, signalling none otherwise. -/
theorem vlc_rwlock_unlock_wakes (r : RW) (hr : RWReach r) (cv : CV) (l : List Nat)
    (fuel : Nat) (hq : isQueue cv l) (hf : l.length ≤ fuel) :
    (r.state < 0 →
      vlc_rwlock_unlock r.state = some (0, WakeAction.wBroadcast) ∧
      (vlc_cond_broadcast fuel cv).head = none ∧
      (∀ i ∈ l, ((vlc_cond_broadcast fuel cv).w i).value = (cv.w i).value + 1)) ∧
    (0 < r.state →
      vlc_rwlock_unlock r.state =
        some (r.state - 1,
          if r.state - 1 = 0 then WakeAction.wSignal else WakeAction.wNone)) := by
  obtain ⟨i1, _, _⟩ := rwInv_of_reach hr
  obtain ⟨b1, _, b3, _⟩ := broadcast_spec hq hf
  constructor
  · intro hneg
    have hwb : r.state = WRITER_BIT := (i1.mp hneg).2.1
    refine ⟨?_, b1, b3⟩
    rw [hwb]
    decide
  · intro hpos
    have h1 : ¬(r.state < 0) := by omega
    have h2 : ¬(r.state = 0) := by omega
    simp only [vlc_rwlock_unlock, if_neg h1, if_neg h2]
    split <;> rfl

/-- Claim C6 witness: write unlock from the reachable write-held state,
with one concrete queued waiter woken by the broadcast. -/
theorem vlc_rwlock_unlock_wakes_witness :
    ((⟨WRITER_BIT, 0, 1⟩ : RW).state < 0 →
      vlc_rwlock_unlock (⟨WRITER_BIT, 0, 1⟩ : RW).state = some (0, WakeAction.wBroadcast) ∧
      (vlc_cond_broadcast 1 (vlc_cond_wait_prepare cvInit 0)).head = none ∧
      (∀ i ∈ [0], ((vlc_cond_broadcast 1 (vlc_cond_wait_prepare cvInit 0)).w i).value =
        ((vlc_cond_wait_prepare cvInit 0).w i).value + 1)) ∧
    (0 < (⟨WRITER_BIT, 0, 1⟩ : RW).state →
      vlc_rwlock_unlock (⟨WRITER_BIT, 0, 1⟩ : RW).state =
        some ((⟨WRITER_BIT, 0, 1⟩ : RW).state - 1,
          if (⟨WRITER_BIT, 0, 1⟩ : RW).state - 1 = 0 then WakeAction.wSignal
          else WakeAction.wNone)) :=
  vlc_rwlock_unlock_wakes ⟨WRITER_BIT, 0, 1⟩ (RWReach.wrlock RWReach.init rfl)
    (vlc_cond_wait_prepare cvInit 0) [0] 1 (prepare_cvInit_queue 0) (by decide)

/-- Claim C7: a `vlc_sem_timedwait` call whose park elapses the deadline
returns the timeout status having performed no decrement (every value it
observed was zero); a call that returns success performed exactly one
decrement, of an observed nonzero value. -/
theorem vlc_sem_timedwait_outcomes (obs : List Nat) :
    ((vlc_sem_timedwait obs).1 = SemWaitResult.timedout →
      (vlc_sem_timedwait obs).2 = 0 ∧ ∀ v ∈ obs, v = 0) ∧
    (∀ n, (vlc_sem_timedwait obs).1 = SemWaitResult.ok n →
      (vlc_sem_timedwait obs).2 = 1 ∧ ∃ v, v ∈ obs ∧ v ≠ 0 ∧ n = v - 1) := by
  induction obs with
  | nil =>
    refine ⟨fun _ => ⟨rfl, by simp⟩, ?_⟩
    intro n hn
    simp [vlc_sem_timedwait] at hn
  | cons v obs ih =>
    by_cases hv : v = 0
    · subst hv
      have he : vlc_sem_timedwait (0 :: obs) = vlc_sem_timedwait obs := by
        simp [vlc_sem_timedwait]
      rw [he]
      refine ⟨fun ht => ⟨(ih.1 ht).1, ?_⟩, fun n hn => ⟨(ih.2 n hn).1, ?_⟩⟩
      · intro x hx
        rcases List.mem_cons.mp hx with rfl | hx2
        · rfl
        · exact (ih.1 ht).2 x hx2
      · obtain ⟨x, hx, hxne, hxe⟩ := (ih.2 n hn).2
        exact ⟨x, List.mem_cons_of_mem 0 hx, hxne, hxe⟩
    · have he : vlc_sem_timedwait (v :: obs) = (SemWaitResult.ok (v - 1), 1) := by
        simp [vlc_sem_timedwait, hv]
      rw [he]
      refine ⟨fun ht => by simp at ht, fun n hn => ?_⟩
      simp only at hn
      have hne : n = v - 1 := by
        cases hn
        rfl
      exact ⟨rfl, v, List.mem_cons_self v obs, hv, hne⟩

/-- Claim C7 witness: one zero observation (a park that wakes), then an
observed 3 decremented to 2. -/
theorem vlc_sem_timedwait_outcomes_witness :
    (vlc_sem_timedwait [0, 3]).2 = 1 ∧ ∃ v, v ∈ [0, 3] ∧ v ≠ 0 ∧ 2 = v - 1 :=
  (vlc_sem_timedwait_outcomes [0, 3]).2 2 (by decide)

/-- Claim C8: in a non-write-held state (0 ≤ state ≤ READER_MASK),
`vlc_rwlock_rdlock` aborts exactly when the state has reached
`READER_MASK`; below that it increments the reader count by exactly one,
and it never blocks — in particular a thread already holding a read lock
(state > 0) reacquires without blocking. -/
theorem vlc_rwlock_rdlock_overflow (s : Int) (h0 : 0 ≤ s) (hm : s ≤ READER_MASK) :
    (vlc_rwlock_rdlock s = RdlockResult.aborts ↔ s = READER_MASK) ∧
    (s < READER_MASK → vlc_rwlock_rdlock s = RdlockResult.acquired (s + 1)) ∧
    vlc_rwlock_rdlock s ≠ RdlockResult.blocks := by
  have hn : ¬(s < 0) := by omega
  refine ⟨⟨?_, ?_⟩, ?_, ?_⟩
  · intro ha
    by_contra hne
    have hlt : s < READER_MASK := lt_of_le_of_ne hm hne
    simp [vlc_rwlock_rdlock, hn, not_le.mpr hlt] at ha
  · intro he
    subst he
    simp [vlc_rwlock_rdlock, hn]
  · intro hlt
    simp [vlc_rwlock_rdlock, hn, not_le.mpr hlt]
  · by_cases hc : READER_MASK ≤ s
    · simp [vlc_rwlock_rdlock, hn, hc]
    · simp [vlc_rwlock_rdlock, hn, hc]

/-- Claim C8 witness: reacquiring at reader count 3. -/
theorem vlc_rwlock_rdlock_overflow_witness :
    (vlc_rwlock_rdlock 3 = RdlockResult.aborts ↔ (3 : Int) = READER_MASK) ∧
    ((3 : Int) < READER_MASK → vlc_rwlock_rdlock 3 = RdlockResult.acquired 4) ∧
    vlc_rwlock_rdlock 3 ≠ RdlockResult.blocks :=
  vlc_rwlock_rdlock_overflow 3 (by decide) (by decide)

/-- Claim C9: for a lock identity not yet in the per-thread set, mark()
inserts it at refcount 1 and marks it held; a second mark() raises the
refcount to 2; the first unmark() lowers it back to 1 with the lock still
marked; the second unmark() removes the entry, leaving the lock
unmarked. -/
theorem vlc_lock_mark_recursion (root : List LockMark) (lock : Nat)
    (h : ∀ e ∈ root, e.1 ≠ lock) :
    vlc_lock_marked lock (vlc_lock_mark lock root) = true ∧
    refsOf lock (vlc_lock_mark lock root) = some 1 ∧
    refsOf lock (vlc_lock_mark lock (vlc_lock_mark lock root)) = some 2 ∧
    vlc_lock_unmark lock (vlc_lock_mark lock (vlc_lock_mark lock root)) =
      some (vlc_lock_mark lock root) ∧
    vlc_lock_unmark lock (vlc_lock_mark lock root) = some root ∧
    vlc_lock_marked lock root = false := by
  have hany : (root.any fun e => e.1 = lock) = false := any_nolock h
  have hm1 : vlc_lock_mark lock root = (lock, 1) :: root := by
    simp [vlc_lock_mark, hany]
  have hm2 : vlc_lock_mark lock ((lock, 1) :: root) = (lock, 2) :: root := by
    simp [vlc_lock_mark, map_inc_nolock h]
  have hmd := map_dec_nolock h
  have hu2 : vlc_lock_unmark lock ((lock, 2) :: root) = some ((lock, 1) :: root) := by
    simp [vlc_lock_unmark, hmd]
  have hfl := filter_nolock h
  have hu1 : vlc_lock_unmark lock ((lock, 1) :: root) = some root := by
    simp [vlc_lock_unmark, hfl]
    all_goals exact fun a b hab => h (a, b) hab
  refine ⟨?_, ?_, ?_, ?_, ?_, ?_⟩
  · rw [hm1]
    simp [vlc_lock_marked]
  · rw [hm1]
    simp [refsOf]
  · rw [hm1, hm2]
    simp [refsOf]
  · rw [hm1, hm2, hu2]
  · rw [hm1, hu1]
  · exact hany

/-- Claim C9 witness: empty initial set, lock identity 0. -/
theorem vlc_lock_mark_recursion_witness :
    vlc_lock_marked 0 (vlc_lock_mark 0 []) = true ∧
    refsOf 0 (vlc_lock_mark 0 []) = some 1 ∧
    refsOf 0 (vlc_lock_mark 0 (vlc_lock_mark 0 [])) = some 2 ∧
    vlc_lock_unmark 0 (vlc_lock_mark 0 (vlc_lock_mark 0 [])) = some (vlc_lock_mark 0 []) ∧
    vlc_lock_unmark 0 (vlc_lock_mark 0 []) = some [] ∧
    vlc_lock_marked 0 [] = false :=
  vlc_lock_mark_recursion [] 0 (by simp)

/-- Claim C10: `vlc_cond_signal_waiter` resets a detached waiter's
linkage to point only at itself (`pprev = &its own next`, `next = NULL`),
and for any waiter whose linkage is in that detached shape, the unlink in
`vlc_cond_wait_finish` is a no-op: the condvar state — queue head and
every waiter record — is left entirely unchanged. -/
theorem vlc_cond_detached_unlink_noop (cv0 cv : CV) (i : Nat)
    (h1 : (cv.w i).pprev = Slot.nextOf i) (h2 : (cv.w i).next = none) :
    ((vlc_cond_signal_waiter cv0 i).w i).pprev = Slot.nextOf i ∧
    ((vlc_cond_signal_waiter cv0 i).w i).next = none ∧
    vlc_cond_wait_finish cv i = cv := by
  refine ⟨by simp, by simp, ?_⟩
  have hupd : { cv.w i with next := none } = cv.w i := by rw [← h2]
  have hwfun : (fun j => if j = i then { cv.w i with next := none } else cv.w j) = cv.w := by
    funext j
    by_cases hj : j = i
    · subst hj
      rw [if_pos rfl, hupd]
    · rw [if_neg hj]
  simp only [vlc_cond_wait_finish, h1, h2]
  show cv.writeSlot (Slot.nextOf i) none = cv
  simp only [CV.writeSlot, hwfun]

/-- Claim C10 witness: the waiter detached from the empty condvar by a
direct `vlc_cond_signal_waiter`. -/
theorem vlc_cond_detached_unlink_noop_witness :
    ((vlc_cond_signal_waiter cvInit 0).w 0).pprev = Slot.nextOf 0 ∧
    ((vlc_cond_signal_waiter cvInit 0).w 0).next = none ∧
    vlc_cond_wait_finish (vlc_cond_signal_waiter cvInit 0) 0 =
      vlc_cond_signal_waiter cvInit 0 :=
  vlc_cond_detached_unlink_noop cvInit (vlc_cond_signal_waiter cvInit 0) 0 rfl rfl

end VlcThreads
